import Mathlib

/-!
Shallow embedding of the Khmer text summarization backend
(backend/model_handler.py and backend/app.py).

Modelling conventions:
- Python strings are lists of characters (code points), so len and slicing
  match Python's code-point semantics.
- Python float arithmetic is modelled exactly, by unreduced integer
  fractions (the Frac type below); the literals 0.1 and 0.8 become the
  exact fractions 1/10 and 8/10.  Frac.toQ maps a fraction to the rational
  number it denotes.
- Python list.sort is a stable sort, modelled by stable insertion sort.
  list.sort(reverse=True) on tuples compares whole tuples lexicographically
  and reverses that comparison, which is modelled by sorting with the
  negation of the strict lexicographic tuple order.
- The opaque neural capabilities (tokenizer, model.generate) are modelled as
  function fields that may fail, returning Except.
-/

namespace KhmerSum

/-- An exact rational as an unreduced integer fraction.  Every fraction the
embedding builds keeps a positive denominator. -/
structure Frac where
  num : ℤ
  den : ℤ
  deriving DecidableEq, Repr

namespace Frac

/-- Embed a natural number. -/
def ofNat (k : ℕ) : Frac := ⟨(k : ℤ), 1⟩

/-- Fraction multiplication. -/
def mul (a b : Frac) : Frac := ⟨a.num * b.num, a.den * b.den⟩

/-- Fraction subtraction. -/
def sub (a b : Frac) : Frac := ⟨a.num * b.den - b.num * a.den, a.den * b.den⟩

/-- Fraction division (denominator handling is irrelevant here because the
program only ever divides by nonnegative counts). -/
def div (a b : Frac) : Frac := ⟨a.num * b.den, a.den * b.num⟩

/-- Strict comparison by cross multiplication; faithful to the numeric
order whenever both denominators are positive. -/
def ltb (a b : Frac) : Bool := a.num * b.den < b.num * a.den

/-- The rational number a fraction denotes. -/
def toQ (a : Frac) : ℚ := (a.num : ℚ) / (a.den : ℚ)

end Frac

/-- The two Khmer sentence delimiters of the regex character class in
re.split. -/
def isKhDelim (c : Char) : Bool :=
  c = '។' || c = '៕'

/-- Whitespace characters stripped by str.strip (ASCII core). -/
def pyIsSpace (c : Char) : Bool :=
  c = ' ' || c = '\t' || c = '\n' || c = '\r' || c = '\x0b' || c = '\x0c'

/-- Python str.strip: drop whitespace from both ends. -/
def pyStrip (s : List Char) : List Char :=
  ((s.dropWhile pyIsSpace).reverse.dropWhile pyIsSpace).reverse

/-- re.split on the Khmer delimiter class: split the character list at each
delimiter occurrence, keeping empty fragments (re.split keeps them). -/
def splitKh : List Char → List (List Char)
  | [] => [[]]
  | c :: rest =>
    if isKhDelim c then
      [] :: splitKh rest
    else
      match splitKh rest with
      | [] => [[c]]
      | h :: t => (c :: h) :: t

/-- sentences = [s.strip() for s in re.split(..., text) if s.strip()] -/
def khSentences (text : List Char) : List (List Char) :=
  ((splitKh text).map pyStrip).filter (fun s => s ≠ [])

/-- score = len(sent) * (1 - i * 0.1 / len(sentences)), in exact
fraction arithmetic. -/
def pyScore (sent : List Char) (i n : ℕ) : Frac :=
  Frac.mul (Frac.ofNat sent.length)
    (Frac.sub (Frac.ofNat 1)
      (Frac.div (Frac.mul (Frac.ofNat i) ⟨1, 10⟩) (Frac.ofNat n)))

/-- The scored tuple list built by the enumerate loop: entries
(score, sent, i) with i counting from the given start index. -/
def scoreList (n : ℕ) : ℕ → List (List Char) → List (Frac × List Char × ℕ)
  | _, [] => []
  | i, s :: rest => (pyScore s i n, s, i) :: scoreList n (i + 1) rest

/-- Stable insertion of an element into a list: the element goes before the
first entry it compares le to, hence after earlier-arriving ties. -/
def insertSt (le : α → α → Bool) (x : α) : List α → List α
  | [] => [x]
  | y :: ys => if le x y then x :: y :: ys else y :: insertSt le x ys

/-- Stable insertion sort, the model of Python list.sort. -/
def sortSt (le : α → α → Bool) : List α → List α
  | [] => []
  | x :: xs => insertSt le x (sortSt le xs)

/-- Python string strict lexicographic comparison by code point. -/
def strLtb : List Char → List Char → Bool
  | [], [] => false
  | [], _ :: _ => true
  | _ :: _, [] => false
  | a :: as, b :: bs =>
    if a < b then true
    else if b < a then false
    else strLtb as bs

/-- Python strict lexicographic comparison of the tuples
(score, sent, original index). -/
def tupleLtb (x y : Frac × List Char × ℕ) : Bool :=
  if Frac.ltb x.1 y.1 then true
  else if Frac.ltb y.1 x.1 then false
  else if strLtb x.2.1 y.2.1 then true
  else if strLtb y.2.1 x.2.1 then false
  else decide (x.2.2 < y.2.2)

/-- The comparison used by sort(reverse=True) on the scored tuples: a may
come before b exactly when a is not strictly below b in tuple order. -/
def leTup (a b : Frac × List Char × ℕ) : Bool :=
  !(tupleLtb a b)

/-- scored_sentences built from the filtered sentence list. -/
def scoredOf (sents : List (List Char)) : List (Frac × List Char × ℕ) :=
  scoreList sents.length 0 sents

/-- scored_sentences.sort(reverse=True): stable sort under the reversed
tuple comparison, i.e. descending lexicographically. -/
def sortedScored (sents : List (List Char)) : List (Frac × List Char × ℕ) :=
  sortSt leTup (scoredOf sents)

/-- The break test of the selection loop:
current_length >= max_length * 0.8, in exact fraction arithmetic. -/
def breakTest (maxL cur : ℕ) : Bool :=
  !(Frac.ltb (Frac.ofNat cur) (Frac.mul (Frac.ofNat maxL) ⟨8, 10⟩))

/-- The greedy selection loop over the sorted tuples: accept a unit when the
accumulated length plus its rendered length (content plus one delimiter)
stays within max_length, then break once the accumulated length reaches
80 percent of max_length. Returns (summary_parts, current_length). -/
def selectLoop (maxL : ℕ) :
    List (Frac × List Char × ℕ) → ℕ → List (ℕ × List Char) →
    List (ℕ × List Char) × ℕ
  | [], cur, acc => (acc, cur)
  | (_, sent, idx) :: rest, cur, acc =>
    let rendered := sent ++ ['។']
    let accepted : Bool := cur + rendered.length ≤ maxL
    let acc' := if accepted then acc ++ [(idx, rendered)] else acc
    let cur' := if accepted then cur + rendered.length else cur
    if breakTest maxL cur' then (acc', cur')
    else selectLoop maxL rest cur' acc'

/-- summary_parts right after the selection loop. -/
def selectParts (text : List Char) (maxL : ℕ) : List (ℕ × List Char) :=
  (selectLoop maxL (sortedScored (khSentences text)) 0 []).1

/-- summary_parts.sort(key=lambda x: x[0]): stable ascending sort on the
original index. -/
def orderedParts (text : List Char) (maxL : ℕ) : List (ℕ × List Char) :=
  sortSt (fun a b => a.1 ≤ b.1) (selectParts text maxL)

/-- sep.join(parts): concatenation with the separator between entries. -/
def pyJoin (sep : List Char) : List (List Char) → List Char
  | [] => []
  | [x] => x
  | x :: y :: rest => x ++ sep ++ pyJoin sep (y :: rest)

/-- KhmerSummarizer._extractive_summarize(text, max_length). -/
def extractiveSummarize (text : List Char) (maxL : ℕ) : List Char :=
  if khSentences text = [] then text.take maxL
  else
    let summary := pyJoin [' '] ((orderedParts text maxL).map (fun p => p.2))
    if summary = [] then text.take maxL else summary

/-- The opaque tokenizer capability: encoding and decoding may raise. -/
structure Tokenizer where
  encode : List Char → Except Unit (List ℕ)
  decode : List ℕ → Except Unit (List Char)

/-- The opaque generation capability of a loaded model: may raise. -/
def GenFn : Type := List ℕ → ℕ → ℕ → Except Unit (List ℕ)

/-- The facade state: optional model and tokenizer handles, loaded
independently at construction. -/
structure KhmerSummarizer where
  model : Option GenFn
  tokenizer : Option Tokenizer

/-- The body of the try block of summarize: tokenize, generate, decode.
Calling an absent tokenizer raises, which the embedding reports as an
error value. -/
def neuralPipeline (tok? : Option Tokenizer) (gen : GenFn)
    (text : List Char) (maxL minL : ℕ) : Except Unit (List Char) :=
  match tok? with
  | none => .error ()
  | some tok => do
    let ids ← tok.encode text
    let out ← gen ids maxL minL
    tok.decode out

/-- KhmerSummarizer.summarize(text, max_length, min_length). -/
def summarize (S : KhmerSummarizer) (text : List Char) (maxL minL : ℕ) :
    List Char :=
  match S.model with
  | none => extractiveSummarize text maxL
  | some gen =>
    match neuralPipeline S.tokenizer gen text maxL minL with
    | .ok s => s
    | .error _ => extractiveSummarize text maxL

/-- KhmerSummarizer.is_loaded. -/
def isLoaded (S : KhmerSummarizer) : Bool :=
  S.model.isSome

/-- The two 400-level validation messages of the /api/summarize route. -/
inductive ApiMsg where
  | noText
  | tooShort
  deriving DecidableEq, Repr

/-- Responses of the /api/summarize route. -/
inductive ApiResponse where
  | ok (summary : List Char) (originalLength summaryLength : ℕ)
  | err (status : ℕ) (msg : ApiMsg)
  deriving DecidableEq, Repr

/-- The /api/summarize handler body (app.py): validation, then delegation
to the facade. -/
def apiSummarize (S : KhmerSummarizer) (text : List Char) (maxL minL : ℕ) :
    ApiResponse :=
  if text = [] then .err 400 .noText
  else if (pyStrip text).length < 10 then .err 400 .tooShort
  else
    let summary := summarize S text maxL minL
    .ok summary text.length summary.length

/-! ### Stable insertion sort: permutation and sortedness -/

theorem mem_insertSt {le : α → α → Bool} {x a : α} {l : List α} :
    a ∈ insertSt le x l ↔ a = x ∨ a ∈ l := by
  induction l with
  | nil => simp [insertSt]
  | cons y ys ih =>
    by_cases h : le x y = true
    · simp [insertSt, h]
    · simp [insertSt, h, ih]
      tauto

theorem insertSt_perm (le : α → α → Bool) (x : α) (l : List α) :
    List.Perm (insertSt le x l) (x :: l) := by
  induction l with
  | nil => simp [insertSt]
  | cons y ys ih =>
    by_cases h : le x y = true
    · simp [insertSt, h]
    · simp only [insertSt, h, if_false]
      exact (ih.cons y).trans (List.Perm.swap x y ys)

theorem sortSt_perm (le : α → α → Bool) (l : List α) :
    List.Perm (sortSt le l) l := by
  induction l with
  | nil => simp [sortSt]
  | cons x xs ih =>
    exact (insertSt_perm le x (sortSt le xs)).trans (ih.cons x)

theorem mem_sortSt {le : α → α → Bool} {a : α} {l : List α} :
    a ∈ sortSt le l ↔ a ∈ l :=
  (sortSt_perm le l).mem_iff

theorem pairwise_insertSt {le : α → α → Bool} {P : α → Prop}
    (total : ∀ a b, le a b = true ∨ le b a = true)
    (trans : ∀ a b c, P a → P b → P c →
      le a b = true → le b c = true → le a c = true)
    (x : α) (hx : P x) :
    ∀ l : List α, (∀ a ∈ l, P a) →
      l.Pairwise (fun a b => le a b = true) →
      (insertSt le x l).Pairwise (fun a b => le a b = true) := by
  intro l
  induction l with
  | nil => intro _ _; simp [insertSt]
  | cons y ys ih =>
    intro hP hpw
    rcases List.pairwise_cons.mp hpw with ⟨hy, hys⟩
    by_cases h : le x y = true
    · simp only [insertSt, h, if_true]
      refine List.pairwise_cons.mpr ⟨?_, hpw⟩
      intro b hb
      rcases List.mem_cons.mp hb with rfl | hb
      · exact h
      · exact trans x y b hx (hP y (List.mem_cons_self y ys))
          (hP b (List.mem_cons_of_mem y hb)) h (hy b hb)
    · have hyx : le y x = true := (total x y).resolve_left h
      simp only [insertSt, h, if_false]
      refine List.pairwise_cons.mpr ⟨?_, ?_⟩
      · intro b hb
        rcases mem_insertSt.mp hb with rfl | hb
        · exact hyx
        · exact hy b hb
      · exact ih (fun a ha => hP a (List.mem_cons_of_mem y ha)) hys

theorem pairwise_sortSt {le : α → α → Bool} {P : α → Prop}
    (total : ∀ a b, le a b = true ∨ le b a = true)
    (trans : ∀ a b c, P a → P b → P c →
      le a b = true → le b c = true → le a c = true) :
    ∀ l : List α, (∀ a ∈ l, P a) →
      (sortSt le l).Pairwise (fun a b => le a b = true) := by
  intro l
  induction l with
  | nil => intro _; simp [sortSt]
  | cons x xs ih =>
    intro hP
    exact pairwise_insertSt total trans x (hP x (List.mem_cons_self x xs))
      (sortSt le xs)
      (fun a ha => hP a (List.mem_cons_of_mem x (mem_sortSt.mp ha)))
      (ih (fun a ha => hP a (List.mem_cons_of_mem x ha)))

/-! ### The string comparison is a strict total order -/

theorem strLtb_cons {a b : Char} {as bs : List Char} :
    strLtb (a :: as) (b :: bs) = true ↔
      a < b ∨ (a = b ∧ strLtb as bs = true) := by
  simp only [strLtb]
  split_ifs with h1 h2
  · simp [h1]
  · simp only [false_iff]
    rintro (h | ⟨rfl, _⟩)
    · exact h1 h
    · exact lt_irrefl a h2
  · have : a = b := le_antisymm (not_lt.mp h2) (not_lt.mp h1)
    simp [h1, this]

theorem strLtb_irrefl : ∀ s : List Char, strLtb s s = false
  | [] => by simp [strLtb]
  | a :: as => by
    rw [Bool.eq_false_iff]
    intro h
    rcases strLtb_cons.mp h with h' | ⟨_, h'⟩
    · exact lt_irrefl a h'
    · exact Bool.eq_false_iff.mp (strLtb_irrefl as) h'

theorem strLtb_asymm :
    ∀ s t : List Char, strLtb s t = true → strLtb t s = false
  | [], [] => by simp [strLtb]
  | [], _ :: _ => by simp [strLtb]
  | _ :: _, [] => by simp [strLtb]
  | a :: as, b :: bs => by
    intro h
    rcases strLtb_cons.mp h with hab | ⟨rfl, hab⟩
    · rw [Bool.eq_false_iff]
      intro h'
      rcases strLtb_cons.mp h' with hba | ⟨heq, _⟩
      · exact lt_asymm hab hba
      · exact lt_irrefl a (heq ▸ hab)
    · rw [Bool.eq_false_iff]
      intro h'
      rcases strLtb_cons.mp h' with hba | ⟨_, hba⟩
      · exact lt_irrefl a hba
      · exact Bool.eq_false_iff.mp (strLtb_asymm as bs hab) hba

theorem strLtb_trans :
    ∀ s t u : List Char, strLtb s t = true → strLtb t u = true →
      strLtb s u = true
  | [], [], _ => by simp [strLtb]
  | [], _ :: _, [] => by intro _ h2; exact absurd h2 (by simp [strLtb])
  | [], _ :: _, _ :: _ => by intro _ _; simp [strLtb]
  | _ :: _, [], _ => by intro h1; exact absurd h1 (by simp [strLtb])
  | _ :: _, _ :: _, [] => by intro _ h2; exact absurd h2 (by simp [strLtb])
  | a :: as, b :: bs, c :: cs => by
    intro h1 h2
    rcases strLtb_cons.mp h1 with hab | ⟨rfl, hab⟩ <;>
      rcases strLtb_cons.mp h2 with hbc | ⟨heq, hbc⟩
    · exact strLtb_cons.mpr (Or.inl (lt_trans hab hbc))
    · exact strLtb_cons.mpr (Or.inl (heq ▸ hab))
    · exact strLtb_cons.mpr (Or.inl hbc)
    · exact strLtb_cons.mpr (Or.inr ⟨heq, strLtb_trans as bs cs hab hbc⟩)

theorem strLtb_eq_of_not :
    ∀ s t : List Char, strLtb s t = false → strLtb t s = false → s = t
  | [], [] => by simp
  | [], _ :: _ => by simp [strLtb]
  | _ :: _, [] => by simp [strLtb]
  | a :: as, b :: bs => by
    intro h1 h2
    have hab : ¬ a < b := fun h => by
      simp [strLtb_cons.mpr (Or.inl h)] at h1
    have hba : ¬ b < a := fun h => by
      simp [strLtb_cons.mpr (Or.inl h)] at h2
    have heq : a = b := le_antisymm (not_lt.mp hba) (not_lt.mp hab)
    subst heq
    have h1' : strLtb as bs = false := by
      by_cases h : strLtb as bs = true
      · rw [strLtb_cons.mpr (Or.inr ⟨rfl, h⟩)] at h1; exact absurd h1 (by simp)
      · exact Bool.eq_false_iff.mpr h
    have h2' : strLtb bs as = false := by
      by_cases h : strLtb bs as = true
      · rw [strLtb_cons.mpr (Or.inr ⟨rfl, h⟩)] at h2; exact absurd h2 (by simp)
      · exact Bool.eq_false_iff.mpr h
    rw [strLtb_eq_of_not as bs h1' h2']

/-! ### Fraction and tuple comparison lemmas -/

theorem Frac.ltb_asymm {a b : Frac} (h : Frac.ltb a b = true) :
    Frac.ltb b a = false := by
  simp only [Frac.ltb, decide_eq_true_eq] at h
  simp only [Frac.ltb, decide_eq_false_iff_not, not_lt]
  omega

theorem Frac.ltb_sameden {D : ℤ} (hD : 0 < D) {a b : Frac}
    (ha : a.den = D) (hb : b.den = D) :
    Frac.ltb a b = decide (a.num < b.num) := by
  simp only [Frac.ltb, ha, hb]
  exact decide_eq_decide.mpr (mul_lt_mul_right hD)

theorem tupleLtb_true_iff {x y : Frac × List Char × ℕ} :
    tupleLtb x y = true ↔
      Frac.ltb x.1 y.1 = true ∨
        (Frac.ltb x.1 y.1 = false ∧ Frac.ltb y.1 x.1 = false ∧
          (strLtb x.2.1 y.2.1 = true ∨
            (strLtb x.2.1 y.2.1 = false ∧ strLtb y.2.1 x.2.1 = false ∧
              x.2.2 < y.2.2))) := by
  by_cases h1 : Frac.ltb x.1 y.1 = true
  · simp [tupleLtb, h1]
  · have h1' : Frac.ltb x.1 y.1 = false := Bool.eq_false_iff.mpr h1
    by_cases h2 : Frac.ltb y.1 x.1 = true
    · simp [tupleLtb, h1', h2]
    · have h2' : Frac.ltb y.1 x.1 = false := Bool.eq_false_iff.mpr h2
      by_cases h3 : strLtb x.2.1 y.2.1 = true
      · simp [tupleLtb, h1', h2', h3]
      · have h3' : strLtb x.2.1 y.2.1 = false := Bool.eq_false_iff.mpr h3
        by_cases h4 : strLtb y.2.1 x.2.1 = true
        · simp [tupleLtb, h1', h2', h3', h4]
        · have h4' : strLtb y.2.1 x.2.1 = false := Bool.eq_false_iff.mpr h4
          simp [tupleLtb, h1', h2', h3', h4']

theorem tupleLtb_asymm {x y : Frac × List Char × ℕ}
    (h : tupleLtb x y = true) : tupleLtb y x = false := by
  rw [Bool.eq_false_iff]
  intro h'
  rcases tupleLtb_true_iff.mp h with hf | ⟨hf1, hf2, hf3⟩ <;>
    rcases tupleLtb_true_iff.mp h' with hg | ⟨hg1, hg2, hg3⟩
  · exact absurd hg (Bool.eq_false_iff.mp (Frac.ltb_asymm hf))
  · exact absurd hf (Bool.eq_false_iff.mp hg2)
  · exact absurd hg (Bool.eq_false_iff.mp hf2)
  · rcases hf3 with hs | ⟨hs1, hs2, hn⟩ <;>
      rcases hg3 with ht | ⟨ht1, ht2, hm⟩
    · exact absurd ht (Bool.eq_false_iff.mp (strLtb_asymm _ _ hs))
    · exact absurd hs (Bool.eq_false_iff.mp ht2)
    · exact absurd ht (Bool.eq_false_iff.mp hs2)
    · omega

theorem leTup_total (a b : Frac × List Char × ℕ) :
    leTup a b = true ∨ leTup b a = true := by
  by_cases h : tupleLtb a b = true
  · right; simp [leTup, tupleLtb_asymm h]
  · left; simp [leTup, Bool.eq_false_iff.mpr h]

theorem leTup_trans {D : ℤ} (hD : 0 < D) {a b c : Frac × List Char × ℕ}
    (ha : a.1.den = D) (hb : b.1.den = D) (hc : c.1.den = D)
    (hab : leTup a b = true) (hbc : leTup b c = true) :
    leTup a c = true := by
  simp only [leTup, Bool.not_eq_true'] at hab hbc ⊢
  rw [Bool.eq_false_iff]
  intro hac
  have Hab : ¬ tupleLtb a b = true := Bool.eq_false_iff.mp hab
  have Hbc : ¬ tupleLtb b c = true := Bool.eq_false_iff.mp hbc
  have nab : ¬ a.1.num < b.1.num := by
    intro h
    exact Hab (tupleLtb_true_iff.mpr (Or.inl
      (by rw [Frac.ltb_sameden hD ha hb]; simpa)))
  have nbc : ¬ b.1.num < c.1.num := by
    intro h
    exact Hbc (tupleLtb_true_iff.mpr (Or.inl
      (by rw [Frac.ltb_sameden hD hb hc]; simpa)))
  rcases tupleLtb_true_iff.mp hac with h1 | ⟨h1, h2, h3⟩
  · rw [Frac.ltb_sameden hD ha hc] at h1
    have : a.1.num < c.1.num := by simpa using h1
    omega
  · rw [Frac.ltb_sameden hD ha hc] at h1
    rw [Frac.ltb_sameden hD hc ha] at h2
    simp only [decide_eq_false_iff_not, not_lt] at h1 h2
    have hacn : a.1.num = c.1.num := le_antisymm h2 h1
    have hban : b.1.num = a.1.num := by omega
    have lab : Frac.ltb a.1 b.1 = false := by
      rw [Frac.ltb_sameden hD ha hb]
      simp only [decide_eq_false_iff_not, not_lt]; omega
    have lba : Frac.ltb b.1 a.1 = false := by
      rw [Frac.ltb_sameden hD hb ha]
      simp only [decide_eq_false_iff_not, not_lt]; omega
    have lbc : Frac.ltb b.1 c.1 = false := by
      rw [Frac.ltb_sameden hD hb hc]
      simp only [decide_eq_false_iff_not, not_lt]; omega
    have lcb : Frac.ltb c.1 b.1 = false := by
      rw [Frac.ltb_sameden hD hc hb]
      simp only [decide_eq_false_iff_not, not_lt]; omega
    have sab : strLtb a.2.1 b.2.1 = false := by
      by_cases hs : strLtb a.2.1 b.2.1 = true
      · exact absurd (tupleLtb_true_iff.mpr
          (Or.inr ⟨lab, lba, Or.inl hs⟩)) Hab
      · exact Bool.eq_false_iff.mpr hs
    have sbc : strLtb b.2.1 c.2.1 = false := by
      by_cases hs : strLtb b.2.1 c.2.1 = true
      · exact absurd (tupleLtb_true_iff.mpr
          (Or.inr ⟨lbc, lcb, Or.inl hs⟩)) Hbc
      · exact Bool.eq_false_iff.mpr hs
    have hstr_ab : strLtb b.2.1 a.2.1 = true ∨
        (a.2.1 = b.2.1 ∧ b.2.2 ≤ a.2.2) := by
      by_cases ht : strLtb b.2.1 a.2.1 = true
      · exact Or.inl ht
      · have ht' : strLtb b.2.1 a.2.1 = false := Bool.eq_false_iff.mpr ht
        refine Or.inr ⟨strLtb_eq_of_not _ _ sab ht', ?_⟩
        by_contra hlt
        exact Hab (tupleLtb_true_iff.mpr
          (Or.inr ⟨lab, lba, Or.inr ⟨sab, ht', by omega⟩⟩))
    have hstr_bc : strLtb c.2.1 b.2.1 = true ∨
        (b.2.1 = c.2.1 ∧ c.2.2 ≤ b.2.2) := by
      by_cases ht : strLtb c.2.1 b.2.1 = true
      · exact Or.inl ht
      · have ht' : strLtb c.2.1 b.2.1 = false := Bool.eq_false_iff.mpr ht
        refine Or.inr ⟨strLtb_eq_of_not _ _ sbc ht', ?_⟩
        by_contra hlt
        exact Hbc (tupleLtb_true_iff.mpr
          (Or.inr ⟨lbc, lcb, Or.inr ⟨sbc, ht', by omega⟩⟩))
    rcases h3 with hsac | ⟨hsac, hsca, hidx⟩
    · rcases hstr_ab with hba | ⟨heqab, _⟩
      · rcases hstr_bc with hcb | ⟨heqbc, _⟩
        · have h5 := strLtb_trans _ _ _ hsac hcb
          have h6 := strLtb_trans _ _ _ h5 hba
          exact Bool.eq_false_iff.mp (strLtb_irrefl _) h6
        · rw [heqbc] at hba
          have h5 := strLtb_trans _ _ _ hsac hba
          exact Bool.eq_false_iff.mp (strLtb_irrefl _) h5
      · rcases hstr_bc with hcb | ⟨heqbc, _⟩
        · rw [← heqab] at hcb
          have h5 := strLtb_trans _ _ _ hsac hcb
          exact Bool.eq_false_iff.mp (strLtb_irrefl _) h5
        · have heq : a.2.1 = c.2.1 := heqab.trans heqbc
          rw [heq] at hsac
          exact Bool.eq_false_iff.mp (strLtb_irrefl _) hsac
    · have heqac : a.2.1 = c.2.1 := strLtb_eq_of_not _ _ hsac hsca
      rcases hstr_ab with hba | ⟨heqab, hia⟩
      · rcases hstr_bc with hcb | ⟨heqbc, _⟩
        · have h5 := strLtb_trans _ _ _ hcb hba
          rw [← heqac] at h5
          exact Bool.eq_false_iff.mp (strLtb_irrefl _) h5
        · rw [heqbc] at hba
          rw [← heqac] at hba
          exact Bool.eq_false_iff.mp (strLtb_irrefl _) hba
      · rcases hstr_bc with hcb | ⟨heqbc, hib⟩
        · rw [← heqab] at hcb
          rw [← heqac] at hcb
          exact Bool.eq_false_iff.mp (strLtb_irrefl _) hcb
        · omega

/-! ### Segmentation and scoring -/

theorem splitKh_no_delim :
    ∀ l : List Char, (∀ c ∈ l, isKhDelim c = false) → splitKh l = [l]
  | [] => fun _ => rfl
  | c :: rest => fun h => by
    have hc : isKhDelim c = false := h c (List.mem_cons_self c rest)
    have hr := splitKh_no_delim rest
      (fun d hd => h d (List.mem_cons_of_mem c hd))
    simp [splitKh, hc, hr]

theorem khSentences_no_delim (text : List Char)
    (h : ∀ c ∈ text, isKhDelim c = false) :
    khSentences text = if pyStrip text = [] then [] else [pyStrip text] := by
  unfold khSentences
  rw [splitKh_no_delim text h]
  by_cases hs : pyStrip text = []
  · simp [hs]
  · simp [hs]

theorem scoreList_length (n : ℕ) :
    ∀ (start : ℕ) (l : List (List Char)),
      (scoreList n start l).length = l.length
  | _, [] => rfl
  | start, _ :: rest => by
    simp [scoreList, scoreList_length n (start + 1) rest]

theorem scoreList_get (n : ℕ) :
    ∀ (start : ℕ) (l : List (List Char)) (i : ℕ) (h : i < l.length)
      (h' : i < (scoreList n start l).length),
      (scoreList n start l).get ⟨i, h'⟩ =
        (pyScore (l.get ⟨i, h⟩) (start + i) n, l.get ⟨i, h⟩, start + i)
  | start, s :: rest, 0, h, h' => by simp [scoreList]
  | start, s :: rest, i + 1, h, h' => by
    have hi : i < rest.length := Nat.lt_of_succ_lt_succ h
    have hi' : i < (scoreList n (start + 1) rest).length := by
      rw [scoreList_length]; exact hi
    have ih := scoreList_get n (start + 1) rest i hi hi'
    simp only [scoreList, List.get_cons_succ, ih]
    have : start + 1 + i = start + (i + 1) := by omega
    rw [this]

theorem scoreList_mem_den (n : ℕ) :
    ∀ (start : ℕ) (l : List (List Char)) (t : Frac × List Char × ℕ),
      t ∈ scoreList n start l → t.1.den = 10 * (n : ℤ)
  | start, [], t => by simp [scoreList]
  | start, s :: rest, t => by
    intro ht
    rcases List.mem_cons.mp ht with rfl | ht
    · simp [pyScore, Frac.mul, Frac.sub, Frac.div, Frac.ofNat]
    · exact scoreList_mem_den n (start + 1) rest t ht

theorem scoreList_mem_sent (n : ℕ) :
    ∀ (start : ℕ) (l : List (List Char)) (t : Frac × List Char × ℕ),
      t ∈ scoreList n start l → t.2.1 ∈ l
  | start, [], t => by simp [scoreList]
  | start, s :: rest, t => by
    intro ht
    rcases List.mem_cons.mp ht with rfl | ht
    · exact List.mem_cons_self s rest
    · exact List.mem_cons_of_mem s (scoreList_mem_sent n (start + 1) rest t ht)

theorem scoreList_exists_sent (n : ℕ) :
    ∀ (start : ℕ) (l : List (List Char)) (s : List Char),
      s ∈ l → ∃ t ∈ scoreList n start l, t.2.1 = s
  | start, [], s => by simp
  | start, a :: rest, s => by
    intro hs
    rcases List.mem_cons.mp hs with rfl | hs
    · exact ⟨(pyScore s start n, s, start), List.mem_cons_self _ _, rfl⟩
    · rcases scoreList_exists_sent n (start + 1) rest s hs with ⟨t, ht, hts⟩
      exact ⟨t, List.mem_cons_of_mem _ ht, hts⟩

/-! ### The selection loop -/

/-- Total content length of the accumulated parts. -/
def sumLen (acc : List (ℕ × List Char)) : ℕ :=
  (acc.map (fun p => p.2.length)).sum

theorem sumLen_append (acc : List (ℕ × List Char)) (x : ℕ × List Char) :
    sumLen (acc ++ [x]) = sumLen acc + x.2.length := by
  simp [sumLen]

theorem breakTest_zero {maxL : ℕ} (h : 0 < maxL) :
    breakTest maxL 0 = false := by
  simp only [breakTest, Frac.ltb, Frac.mul, Frac.ofNat, Bool.not_eq_false',
    decide_eq_true_eq]
  push_cast
  omega

theorem selectLoop_nil (maxL cur : ℕ) (acc : List (ℕ × List Char)) :
    selectLoop maxL [] cur acc = (acc, cur) := rfl

theorem selectLoop_cons_accept_break {maxL cur : ℕ} (sc : Frac)
    (sent : List Char) (idx : ℕ) (rest : List (Frac × List Char × ℕ))
    (acc : List (ℕ × List Char))
    (hacc : cur + (sent ++ ['។']).length ≤ maxL)
    (hbr : breakTest maxL (cur + (sent ++ ['។']).length) = true) :
    selectLoop maxL ((sc, sent, idx) :: rest) cur acc =
      (acc ++ [(idx, sent ++ ['។'])], cur + (sent ++ ['។']).length) := by
  have hlen : (sent ++ ['។']).length = sent.length + 1 := by simp
  rw [hlen] at hacc hbr
  simp [selectLoop, hacc, hbr]

theorem selectLoop_cons_accept {maxL cur : ℕ} (sc : Frac)
    (sent : List Char) (idx : ℕ) (rest : List (Frac × List Char × ℕ))
    (acc : List (ℕ × List Char))
    (hacc : cur + (sent ++ ['។']).length ≤ maxL)
    (hbr : breakTest maxL (cur + (sent ++ ['។']).length) = false) :
    selectLoop maxL ((sc, sent, idx) :: rest) cur acc =
      selectLoop maxL rest (cur + (sent ++ ['។']).length)
        (acc ++ [(idx, sent ++ ['។'])]) := by
  have hlen : (sent ++ ['។']).length = sent.length + 1 := by simp
  rw [hlen] at hacc hbr
  simp [selectLoop, hacc, hbr]

theorem selectLoop_cons_reject_break {maxL cur : ℕ} (sc : Frac)
    (sent : List Char) (idx : ℕ) (rest : List (Frac × List Char × ℕ))
    (acc : List (ℕ × List Char))
    (hacc : ¬ cur + (sent ++ ['។']).length ≤ maxL)
    (hbr : breakTest maxL cur = true) :
    selectLoop maxL ((sc, sent, idx) :: rest) cur acc = (acc, cur) := by
  have hlen : (sent ++ ['។']).length = sent.length + 1 := by simp
  rw [hlen] at hacc
  simp [selectLoop, hacc, hbr]

theorem selectLoop_cons_reject {maxL cur : ℕ} (sc : Frac)
    (sent : List Char) (idx : ℕ) (rest : List (Frac × List Char × ℕ))
    (acc : List (ℕ × List Char))
    (hacc : ¬ cur + (sent ++ ['។']).length ≤ maxL)
    (hbr : breakTest maxL cur = false) :
    selectLoop maxL ((sc, sent, idx) :: rest) cur acc =
      selectLoop maxL rest cur acc := by
  have hlen : (sent ++ ['។']).length = sent.length + 1 := by simp
  rw [hlen] at hacc
  simp [selectLoop, hacc, hbr]

theorem selectLoop_invariant (maxL : ℕ) :
    ∀ (scored : List (Frac × List Char × ℕ)) (cur : ℕ)
      (acc : List (ℕ × List Char)),
      sumLen acc = cur → cur ≤ maxL →
      sumLen (selectLoop maxL scored cur acc).1 =
          (selectLoop maxL scored cur acc).2 ∧
        (selectLoop maxL scored cur acc).2 ≤ maxL
  | [], cur, acc => fun h1 h2 => by
    rw [selectLoop_nil]
    exact ⟨h1, h2⟩
  | (sc, sent, idx) :: rest, cur, acc => fun h1 h2 => by
    by_cases hacc : cur + (sent ++ ['។']).length ≤ maxL
    · have h1' : sumLen (acc ++ [(idx, sent ++ ['។'])]) =
          cur + (sent ++ ['។']).length := by
        rw [sumLen_append, h1]
      by_cases hbr : breakTest maxL (cur + (sent ++ ['។']).length) = true
      · rw [selectLoop_cons_accept_break sc sent idx rest acc hacc hbr]
        exact ⟨h1', hacc⟩
      · rw [selectLoop_cons_accept sc sent idx rest acc hacc
          (Bool.eq_false_iff.mpr hbr)]
        exact selectLoop_invariant maxL rest _ _ h1' hacc
    · by_cases hbr : breakTest maxL cur = true
      · rw [selectLoop_cons_reject_break sc sent idx rest acc hacc hbr]
        exact ⟨h1, h2⟩
      · rw [selectLoop_cons_reject sc sent idx rest acc hacc
          (Bool.eq_false_iff.mpr hbr)]
        exact selectLoop_invariant maxL rest _ _ h1 h2

theorem selectLoop_ne_nil (maxL : ℕ) :
    ∀ (scored : List (Frac × List Char × ℕ)) (cur : ℕ)
      (acc : List (ℕ × List Char)),
      acc ≠ [] → (selectLoop maxL scored cur acc).1 ≠ []
  | [], cur, acc => fun h => by
    rw [selectLoop_nil]; exact h
  | (sc, sent, idx) :: rest, cur, acc => fun h => by
    have h' : acc ++ [(idx, sent ++ ['។'])] ≠ [] := by simp
    by_cases hacc : cur + (sent ++ ['។']).length ≤ maxL
    · by_cases hbr : breakTest maxL (cur + (sent ++ ['។']).length) = true
      · rw [selectLoop_cons_accept_break sc sent idx rest acc hacc hbr]
        exact h'
      · rw [selectLoop_cons_accept sc sent idx rest acc hacc
          (Bool.eq_false_iff.mpr hbr)]
        exact selectLoop_ne_nil maxL rest _ _ h'
    · by_cases hbr : breakTest maxL cur = true
      · rw [selectLoop_cons_reject_break sc sent idx rest acc hacc hbr]
        exact h
      · rw [selectLoop_cons_reject sc sent idx rest acc hacc
          (Bool.eq_false_iff.mpr hbr)]
        exact selectLoop_ne_nil maxL rest _ _ h

theorem selectLoop_snd_ne_nil (maxL : ℕ) :
    ∀ (scored : List (Frac × List Char × ℕ)) (cur : ℕ)
      (acc : List (ℕ × List Char)),
      (∀ p ∈ acc, p.2 ≠ []) →
      ∀ p ∈ (selectLoop maxL scored cur acc).1, p.2 ≠ []
  | [], cur, acc => fun h => by
    rw [selectLoop_nil]; exact h
  | (sc, sent, idx) :: rest, cur, acc => fun h => by
    have h' : ∀ p ∈ acc ++ [(idx, sent ++ ['។'])], p.2 ≠ [] := by
      intro p hp
      rcases List.mem_append.mp hp with hp | hp
      · exact h p hp
      · rcases List.mem_singleton.mp hp with rfl
        simp
    by_cases hacc : cur + (sent ++ ['។']).length ≤ maxL
    · by_cases hbr : breakTest maxL (cur + (sent ++ ['។']).length) = true
      · rw [selectLoop_cons_accept_break sc sent idx rest acc hacc hbr]
        exact h'
      · rw [selectLoop_cons_accept sc sent idx rest acc hacc
          (Bool.eq_false_iff.mpr hbr)]
        exact selectLoop_snd_ne_nil maxL rest _ _ h'
    · by_cases hbr : breakTest maxL cur = true
      · rw [selectLoop_cons_reject_break sc sent idx rest acc hacc hbr]
        exact h
      · rw [selectLoop_cons_reject sc sent idx rest acc hacc
          (Bool.eq_false_iff.mpr hbr)]
        exact selectLoop_snd_ne_nil maxL rest _ _ h

theorem selectLoop_nil_iff {maxL : ℕ} (hmax : 0 < maxL) :
    ∀ scored : List (Frac × List Char × ℕ),
      (selectLoop maxL scored 0 []).1 = [] ↔
        ∀ t ∈ scored, maxL < t.2.1.length + 1
  | [] => by
    rw [selectLoop_nil]
    simp
  | (sc, sent, idx) :: rest => by
    have hlen : (sent ++ ['។']).length = sent.length + 1 := by simp
    by_cases hacc : 0 + (sent ++ ['។']).length ≤ maxL
    · have hne : (selectLoop maxL ((sc, sent, idx) :: rest) 0 []).1 ≠ [] := by
        by_cases hbr : breakTest maxL (0 + (sent ++ ['។']).length) = true
        · rw [selectLoop_cons_accept_break sc sent idx rest [] hacc hbr]
          simp
        · rw [selectLoop_cons_accept sc sent idx rest [] hacc
            (Bool.eq_false_iff.mpr hbr)]
          exact selectLoop_ne_nil maxL rest _ _ (by simp)
      constructor
      · intro h; exact absurd h hne
      · intro h
        exfalso
        have hhd := h (sc, sent, idx) (List.mem_cons_self _ _)
        rw [hlen] at hacc
        simp only at hhd
        omega
    · rw [selectLoop_cons_reject sc sent idx rest [] hacc
        (breakTest_zero hmax), selectLoop_nil_iff hmax rest]
      constructor
      · intro h t ht
        rcases List.mem_cons.mp ht with rfl | ht
        · rw [hlen] at hacc
          simp only
          omega
        · exact h t ht
      · intro h t ht
        exact h t (List.mem_cons_of_mem _ ht)
theorem pyJoin_length_one :
    ∀ l : List (List Char),
      (pyJoin [' '] l).length = (l.map List.length).sum + (l.length - 1)
  | [] => by simp [pyJoin]
  | [x] => by simp [pyJoin]
  | x :: y :: rest => by
    have ih := pyJoin_length_one (y :: rest)
    simp only [pyJoin, List.length_append, ih, List.map_cons, List.sum_cons,
      List.length_cons, List.length_nil]
    omega

theorem pyJoin_ne_nil (sep : List Char) :
    ∀ l : List (List Char), l ≠ [] → (∀ x ∈ l, x ≠ []) →
      pyJoin sep l ≠ []
  | [] => fun h _ => absurd rfl h
  | [x] => fun _ hx => by
    simpa [pyJoin] using hx x (List.mem_singleton_self x)
  | x :: y :: rest => fun _ hx => by
    have : x ≠ [] := hx x (List.mem_cons_self _ _)
    simp only [pyJoin, ne_eq, List.append_assoc, List.append_eq_nil]
    tauto

end KhmerSum

namespace KhmerSum

/-! ### Glue lemmas for the claim theorems -/

theorem pyScore_toQ (s : List Char) (i n : ℕ) (hn : n ≠ 0) :
    (pyScore s i n).toQ =
      (s.length : ℚ) * (1 - (i : ℚ) * (1/10) / (n : ℚ)) := by
  have hn' : ((n : ℚ)) ≠ 0 := Nat.cast_ne_zero.mpr hn
  simp only [pyScore, Frac.toQ, Frac.mul, Frac.sub, Frac.div, Frac.ofNat]
  push_cast
  field_simp
  try ring

theorem extractiveSummarize_of_ne {text : List Char} {maxL : ℕ}
    (h : khSentences text ≠ []) :
    extractiveSummarize text maxL =
      if pyJoin [' '] ((orderedParts text maxL).map (fun p => p.2)) = []
      then text.take maxL
      else pyJoin [' '] ((orderedParts text maxL).map (fun p => p.2)) := by
  unfold extractiveSummarize
  rw [if_neg h]

theorem sumLen_selectParts (text : List Char) (maxL : ℕ) :
    sumLen (selectParts text maxL) ≤ maxL ∧
      sumLen (selectParts text maxL) =
        (selectLoop maxL (sortedScored (khSentences text)) 0 []).2 := by
  have h := selectLoop_invariant maxL (sortedScored (khSentences text)) 0 []
    (by simp [sumLen]) (Nat.zero_le _)
  constructor
  · unfold selectParts
    rw [h.1]
    exact h.2
  · unfold selectParts
    exact h.1

theorem orderedParts_perm (text : List Char) (maxL : ℕ) :
    List.Perm (orderedParts text maxL) (selectParts text maxL) :=
  sortSt_perm _ _

theorem selectParts_snd_ne_nil (text : List Char) (maxL : ℕ) :
    ∀ p ∈ selectParts text maxL, p.2 ≠ [] := by
  unfold selectParts
  exact selectLoop_snd_ne_nil maxL _ 0 [] (by simp)

end KhmerSum

namespace KhmerSum

/-! ### The claims -/

/-- C1 (counterexample): for the text ab។cd។ and maxLength 6 the
extractive summarizer returns the 7-character string ab។ cd។, which is
longer than maxLength and is not the fallback truncation of the raw text:
the claim that overshoot happens only in the fallback branch is false. -/
theorem C1_counterexample :
    6 < (extractiveSummarize "ab។cd។".data 6).length ∧
      extractiveSummarize "ab។cd។".data 6 ≠ ("ab។cd។".data).take 6 := by
  decide

/-- C1 (amended): for every text whose segmentation yields at least one
sentence, the extractive summarizer returns a string of length at most
maxLength plus (k - 1), where k is the number of selected units; the
excess over maxLength comes only from the k - 1 single-space join
separators, and the fallback-to-truncation branch stays within
maxLength. -/
theorem C1_extractive_length_bound (text : List Char) (maxL : ℕ)
    (h : khSentences text ≠ []) :
    (extractiveSummarize text maxL).length ≤
      maxL + ((selectParts text maxL).length - 1) := by
  rw [extractiveSummarize_of_ne h]
  by_cases hj : pyJoin [' '] ((orderedParts text maxL).map (fun p => p.2)) = []
  · rw [if_pos hj]
    have := List.length_take maxL text
    omega
  · rw [if_neg hj]
    have hperm := orderedParts_perm text maxL
    have hlen := hperm.length_eq
    have hsum : ((orderedParts text maxL).map (fun p => p.2.length)).sum =
        sumLen (selectParts text maxL) :=
      (hperm.map (fun p => p.2.length)).sum_eq
    have hb := (sumLen_selectParts text maxL).1
    rw [pyJoin_length_one]
    have hmm : (((orderedParts text maxL).map (fun p => p.2)).map
        List.length).sum = ((orderedParts text maxL).map
          (fun p => p.2.length)).sum := by
      rw [List.map_map]
      rfl
    rw [hmm, hsum]
    rw [List.length_map, hlen]
    omega

/-- C1 (witness): the amended bound instantiated at the text ab។cd។
with maxLength 6, where two units are selected. -/
theorem C1_extractive_length_bound_witness :
    (extractiveSummarize "ab។cd។".data 6).length ≤
      6 + ((selectParts "ab។cd។".data 6).length - 1) :=
  C1_extractive_length_bound "ab។cd។".data 6 (by decide)

/-- C2 (confirmed): summarize never raises past its boundary: with no
model it returns the extractive result directly; with a model but no
tokenizer the neural pipeline fails and the extractive result is
returned; and whenever the neural pipeline reports any error the
extractive result for (text, maxLength) is returned. -/
theorem C2_summarize_never_raises (S : KhmerSummarizer) (text : List Char)
    (maxL minL : ℕ) :
    (S.model = none →
      summarize S text maxL minL = extractiveSummarize text maxL) ∧
    (S.tokenizer = none →
      summarize S text maxL minL = extractiveSummarize text maxL) ∧
    (∀ gen : GenFn, S.model = some gen →
      ∀ e, neuralPipeline S.tokenizer gen text maxL minL = Except.error e →
        summarize S text maxL minL = extractiveSummarize text maxL) := by
  refine ⟨?_, ?_, ?_⟩
  · intro h
    simp [summarize, h]
  · intro h
    cases hm : S.model with
    | none => simp [summarize, hm]
    | some gen => simp [summarize, hm, neuralPipeline, h]
  · intro gen hgen e herr
    simp [summarize, hgen, herr]

/-- C2 (witness): with neither model nor tokenizer loaded, summarize
returns exactly the extractive result. -/
theorem C2_summarize_never_raises_witness :
    summarize ⟨none, none⟩ "abc".data 5 3 = extractiveSummarize "abc".data 5 :=
  (C2_summarize_never_raises ⟨none, none⟩ "abc".data 5 3).1 rfl

/-- C3 (counterexample): the text hello contains neither Khmer delimiter,
yet segmentation yields the one-element unit list [hello], not the empty
list, and the extractive result hello។ is not the raw truncation. -/
theorem C3_counterexample :
    (∀ c ∈ "hello".data, isKhDelim c = false) ∧
      khSentences "hello".data ≠ [] ∧
      extractiveSummarize "hello".data 10 ≠ ("hello".data).take 10 := by
  decide

/-- C3 (amended): for every text that contains none of the two Khmer
delimiters and whose whitespace-strip is empty, segmentation yields the
empty unit list and the extractive summarizer returns the first
maxLength characters of the raw text. -/
theorem C3_no_delim_whitespace (text : List Char) (maxL : ℕ)
    (hdelim : ∀ c ∈ text, isKhDelim c = false)
    (hws : pyStrip text = []) :
    khSentences text = [] ∧
      extractiveSummarize text maxL = text.take maxL := by
  have h := khSentences_no_delim text hdelim
  rw [hws, if_pos rfl] at h
  refine ⟨h, ?_⟩
  unfold extractiveSummarize
  rw [if_pos h]

/-- C3 (witness): the amended statement instantiated at the whitespace
text of three blanks with maxLength 4. -/
theorem C3_no_delim_whitespace_witness :
    khSentences "   ".data = [] ∧
      extractiveSummarize "   ".data 4 = ("   ".data).take 4 :=
  C3_no_delim_whitespace "   ".data 4 (by decide) (by decide)

/-- C4 (confirmed): for every filtered sentence list and every position i
in it, the scored tuple at index i carries exactly the score
length(content) times (1 - i * 0.1 / n) with n the filtered count, the
content at position i, and the post-filter index i. -/
theorem C4_score_formula (sents : List (List Char)) (i : ℕ)
    (h : i < sents.length) (h' : i < (scoredOf sents).length) :
    ((scoredOf sents).get ⟨i, h'⟩).1.toQ =
        (((sents.get ⟨i, h⟩).length : ℚ)) *
          (1 - (i : ℚ) * (1/10) / (sents.length : ℚ)) ∧
      ((scoredOf sents).get ⟨i, h'⟩).2.1 = sents.get ⟨i, h⟩ ∧
      ((scoredOf sents).get ⟨i, h'⟩).2.2 = i := by
  have hg := scoreList_get sents.length 0 sents i h h'
  have hn : sents.length ≠ 0 := by omega
  unfold scoredOf
  rw [hg]
  refine ⟨?_, rfl, by simp⟩
  rw [pyScore_toQ _ _ _ hn]
  norm_num

/-- C4 (witness): the score formula instantiated at the sentence list
[ab, c] and position 1, where the score is 1 * (1 - 0.1/2). -/
theorem C4_score_formula_witness :
    ((scoredOf ["ab".data, "c".data]).get ⟨1, by decide⟩).1.toQ =
        ((((["ab".data, "c".data] : List (List Char)).get
          ⟨1, by decide⟩).length : ℚ)) *
          (1 - (1 : ℚ) * (1/10) / ((["ab".data, "c".data] :
            List (List Char)).length : ℚ)) ∧
      ((scoredOf ["ab".data, "c".data]).get ⟨1, by decide⟩).2.1 =
        (["ab".data, "c".data] : List (List Char)).get ⟨1, by decide⟩ ∧
      ((scoredOf ["ab".data, "c".data]).get ⟨1, by decide⟩).2.2 = 1 :=
  C4_score_formula ["ab".data, "c".data] 1 (by decide) (by decide)

/-- C5 (confirmed): the final part list is a permutation of the selected
set and is ordered ascending by originalIndex, so selected units appear
in original reading order regardless of the score order in which they
were selected. -/
theorem C5_output_reading_order (text : List Char) (maxL : ℕ) :
    List.Perm (orderedParts text maxL) (selectParts text maxL) ∧
      (orderedParts text maxL).Pairwise (fun a b => a.1 ≤ b.1) := by
  refine ⟨orderedParts_perm text maxL, ?_⟩
  have htotal : ∀ a b : ℕ × List Char,
      (decide (a.1 ≤ b.1)) = true ∨ (decide (b.1 ≤ a.1)) = true := by
    intro a b
    rcases Nat.le_total a.1 b.1 with h | h
    · left; simpa using h
    · right; simpa using h
  have htrans : ∀ a b c : ℕ × List Char, True → True → True →
      (decide (a.1 ≤ b.1)) = true → (decide (b.1 ≤ c.1)) = true →
      (decide (a.1 ≤ c.1)) = true := by
    intro a b c _ _ _ h1 h2
    simp only [decide_eq_true_eq] at h1 h2 ⊢
    omega
  have hpw := pairwise_sortSt (P := fun _ => True) htotal htrans
    (selectParts text maxL) (fun _ _ => trivial)
  exact hpw.imp (fun h => by simpa using h)

/-- C6 (counterexample): in the two-sentence text made of 19 letters a
and 20 letters b, both units receive the exact score 19 (the fractions
380/20), yet the reverse-sorted tuples put originalIndex 1 before
originalIndex 0: score ties are not broken by insertion order. -/
theorem C6_counterexample :
    ((sortedScored (khSentences
        "aaaaaaaaaaaaaaaaaaa។bbbbbbbbbbbbbbbbbbbb។".data)).map
      (fun t => t.2.2)) = [1, 0] ∧
    ((sortedScored (khSentences
        "aaaaaaaaaaaaaaaaaaa។bbbbbbbbbbbbbbbbbbbb។".data)).map
      (fun t => (t.1.num, t.1.den))) = [(380, 20), (380, 20)] := by
  decide

/-- C6 (amended): sort(reverse=True) compares whole tuples
(score, content, index): the sorted list is a permutation of the scored
list arranged descending in the lexicographic tuple order, so ties in
score are broken by content descending (code-point order) and then by
index descending, not by insertion order. -/
theorem C6_sort_descending_tuples (sents : List (List Char)) :
    List.Perm (sortedScored sents) (scoredOf sents) ∧
      (sortedScored sents).Pairwise (fun a b => leTup a b = true) := by
  refine ⟨sortSt_perm _ _, ?_⟩
  by_cases hs : sents = []
  · subst hs
    simp [sortedScored, scoredOf, scoreList, sortSt]
  · have hpos : (0 : ℤ) < 10 * (sents.length : ℤ) := by
      have := List.length_pos.mpr hs
      omega
    exact pairwise_sortSt
      (P := fun t => t.1.den = 10 * (sents.length : ℤ))
      leTup_total
      (fun a b c hPa hPb hPc hab hbc => leTup_trans hpos hPa hPb hPc hab hbc)
      (scoredOf sents)
      (fun t ht => scoreList_mem_den sents.length 0 sents t ht)

/-- C7 (confirmed): the extractive path is deterministic: two calls with
identical facade state, text, maxLength and minLength return identical
strings, and with no model loaded both equal the extractive result. -/
theorem C7_extractive_deterministic (S1 S2 : KhmerSummarizer)
    (t1 t2 : List Char) (m1 m2 n1 n2 : ℕ)
    (hS : S1 = S2) (hmodel : S1.model = none)
    (ht : t1 = t2) (hm : m1 = m2) (hn : n1 = n2) :
    summarize S1 t1 m1 n1 = summarize S2 t2 m2 n2 ∧
      summarize S1 t1 m1 n1 = extractiveSummarize t1 m1 := by
  subst hS ht hm hn
  exact ⟨rfl, by simp [summarize, hmodel]⟩

/-- C7 (witness): determinism instantiated at a concrete facade with no
model and the text ab។. -/
theorem C7_extractive_deterministic_witness :
    summarize ⟨none, none⟩ "ab។".data 5 3 =
        summarize ⟨none, none⟩ "ab។".data 5 3 ∧
      summarize ⟨none, none⟩ "ab។".data 5 3 =
        extractiveSummarize "ab។".data 5 :=
  C7_extractive_deterministic ⟨none, none⟩ ⟨none, none⟩
    "ab។".data "ab។".data 5 5 3 3 rfl rfl rfl rfl rfl

/-- C8 (counterexample): for the whitespace-only text of three blanks the
endpoint answers 400 with the too-short message, not the no-text
message claimed. -/
theorem C8_counterexample :
    apiSummarize ⟨none, none⟩ "   ".data 150 50 ≠
      ApiResponse.err 400 ApiMsg.noText := by
  decide

/-- C8 (amended): a request whose text is whitespace-only (three blanks)
gets HTTP 400 carrying the too-short error message, independently of the
facade state, so the summarizer core is never consulted; the no-text
message is reserved for the empty string. -/
theorem C8_whitespace_bad_request (S : KhmerSummarizer) (maxL minL : ℕ) :
    apiSummarize S "   ".data maxL minL =
      ApiResponse.err 400 ApiMsg.tooShort := rfl

/-- C9 (confirmed): the accumulated length maintained by the greedy
selection loop equals the total content length of the accepted parts and
never exceeds maxLength; consequently the joined summary lengths,
excluding the join separators, stay within maxLength. -/
theorem C9_accumulated_length_bound (text : List Char) (maxL : ℕ) :
    sumLen (selectParts text maxL) =
        (selectLoop maxL (sortedScored (khSentences text)) 0 []).2 ∧
      sumLen (selectParts text maxL) ≤ maxL ∧
      ((orderedParts text maxL).map (fun p => p.2.length)).sum ≤ maxL := by
  have h := sumLen_selectParts text maxL
  refine ⟨h.2, h.1, ?_⟩
  have hsum : ((orderedParts text maxL).map (fun p => p.2.length)).sum =
      sumLen (selectParts text maxL) :=
    ((orderedParts_perm text maxL).map (fun p => p.2.length)).sum_eq
  rw [hsum]
  exact h.1

/-- C10 (confirmed): with a positive maxLength and at least one sentence,
the selection is empty exactly when no sentence fits within maxLength
including its delimiter; an empty selection returns the raw truncation,
and a non-empty selection returns the non-empty space-joined parts. -/
theorem C10_fallback_iff_nothing_fits (text : List Char) (maxL : ℕ)
    (hmax : 0 < maxL) (hsen : khSentences text ≠ []) :
    (selectParts text maxL = [] ↔
        ∀ s ∈ khSentences text, maxL < s.length + 1) ∧
      (selectParts text maxL = [] →
        extractiveSummarize text maxL = text.take maxL) ∧
      (selectParts text maxL ≠ [] →
        extractiveSummarize text maxL =
            pyJoin [' '] ((orderedParts text maxL).map (fun p => p.2)) ∧
          extractiveSummarize text maxL ≠ []) := by
  refine ⟨?_, ?_, ?_⟩
  · unfold selectParts
    rw [selectLoop_nil_iff hmax]
    constructor
    · intro hall s hs
      rcases scoreList_exists_sent (khSentences text).length 0
        (khSentences text) s hs with ⟨t, ht, hts⟩
      have := hall t (mem_sortSt.mpr ht)
      rw [hts] at this
      exact this
    · intro hall t ht
      exact hall t.2.1 (scoreList_mem_sent (khSentences text).length 0
        (khSentences text) t (mem_sortSt.mp ht))
  · intro hnil
    rw [extractiveSummarize_of_ne hsen]
    have hop : orderedParts text maxL = [] := by
      unfold orderedParts
      rw [hnil]
      rfl
    rw [hop]
    rfl
  · intro hne
    have hop : orderedParts text maxL ≠ [] := by
      intro h0
      apply hne
      have hlen := (orderedParts_perm text maxL).length_eq
      rw [h0] at hlen
      exact List.length_eq_zero.mp hlen.symm
    have hsnd : ∀ x ∈ (orderedParts text maxL).map (fun p => p.2), x ≠ [] := by
      intro x hx
      rcases List.mem_map.mp hx with ⟨p, hp, rfl⟩
      exact selectParts_snd_ne_nil text maxL p
        ((orderedParts_perm text maxL).mem_iff.mp hp)
    have hmapne : (orderedParts text maxL).map (fun p => p.2) ≠ [] := by
      intro h0
      exact hop (List.map_eq_nil_iff.mp h0)
    have hjoin := pyJoin_ne_nil [' '] _ hmapne hsnd
    rw [extractiveSummarize_of_ne hsen, if_neg hjoin]
    exact ⟨rfl, hjoin⟩

/-- C10 (witness): the characterization instantiated at the text ab។cd។
with maxLength 6, where the selection is non-empty. -/
theorem C10_fallback_iff_nothing_fits_witness :
    (selectParts "ab។cd។".data 6 = [] ↔
        ∀ s ∈ khSentences "ab។cd។".data, 6 < s.length + 1) ∧
      (selectParts "ab។cd។".data 6 = [] →
        extractiveSummarize "ab។cd។".data 6 = ("ab។cd។".data).take 6) ∧
      (selectParts "ab។cd។".data 6 ≠ [] →
        extractiveSummarize "ab។cd។".data 6 =
            pyJoin [' '] ((orderedParts "ab។cd។".data 6).map
              (fun p => p.2)) ∧
          extractiveSummarize "ab។cd។".data 6 ≠ []) :=
  C10_fallback_iff_nothing_fits "ab។cd។".data 6 (by decide) (by decide)

end KhmerSum
